import Mathlib

/-!
# Kernel manager: classification, environment scoping, build preparation

A shallow embedding of the parts of `kernel.hpp`, `utils.hpp` and `utils.cpp`
that the verified properties talk about.

Modelling conventions
* `std::string` / `std::string_view` are `List Char`; `c_str` gives the C
  string a libc function sees, the characters before the first NUL.
* The process environment is an association list; `setenv` / `unsetenv` are
  total functions returning the libc status together with the new environment.
* An element access past the end of a `std::vector` (undefined behaviour in
  C++) and a call to `std::terminate` are explicit failure results.
* `std::int32_t` is `Int` wrapped into `[-2^31, 2^31)`.
* A loop that need not end takes a fuel argument and yields `none` when the
  fuel runs out; strings are unbounded, so memory exhaustion is not a result.
-/

namespace KernelManager

/-! ## kernel.hpp -/

/-- The subrange returned by `ranges::search(haystack, needle)`: the first
occurrence of `needle` inside `haystack`, or the empty range at the end when
there is none. -/
def search : List Char → List Char → List Char
  | [], _ => []
  | h :: t, needle =>
      if needle.isPrefixOf (h :: t) then (h :: t).take needle.length
      else search t needle

/-- The data members of `class Kernel` that do not point into libalpm. -/
structure Kernel where
  m_update : Bool := false
  m_name : List Char := []
  m_repo : List Char := "local".toList
  m_raw : List Char := []
  m_installed_db : List Char := []

/-- `Kernel::category()`: a chain of seven `ranges::search` tests. -/
def Kernel.category (k : Kernel) : String :=
  let lto := "lto".toList
  let lts := "lts".toList
  let zen := "zen".toList
  let hardened := "hardened".toList
  let next := "next".toList
  let mainline := "mainline".toList
  let git := "git".toList
  if !(search k.m_name lto).isEmpty then "lto optimized"
  else if !(search k.m_name lts).isEmpty then "longterm"
  else if !(search k.m_name zen).isEmpty then "zen-kernel"
  else if !(search k.m_name hardened).isEmpty then "hardened-kernel"
  else if !(search k.m_name next).isEmpty then "next release"
  else if !(search k.m_name mainline).isEmpty then "mainline branch"
  else if !(search k.m_name git).isEmpty then "master branch"
  else "stable"

/-- The fixed priority list of the classifier, as the specification words it:
keyword and label, in test order. -/
def keywordTable : List (List Char × String) :=
  [("lto".toList, "lto optimized"), ("lts".toList, "longterm"),
   ("zen".toList, "zen-kernel"), ("hardened".toList, "hardened-kernel"),
   ("next".toList, "next release"), ("mainline".toList, "mainline branch"),
   ("git".toList, "master branch")]

/-- The classifier as the specification words it: the label of the first
keyword of the table that occurs as a substring of the name, `stable` when
none does. -/
def classifySpec (n : List Char) : String :=
  match keywordTable.find? (fun e => decide (e.1 <:+: n)) with
  | some e => e.2
  | none => "stable"

/-! ## kernel.hpp: the install and removal lists -/

/-- Modelled from the spec: the two process-wide lists behind
`Kernel::get_install_list()` and `Kernel::get_removal_list()`. The header only
declares the two accessors; the file that defines the lists is not among the
sources. -/
structure Worklists where
  install_list : List (List Char)
  removal_list : List (List Char)
  deriving DecidableEq

/-- `Kernel::get_install_list()`: the install list, by non-const reference. -/
def Kernel.get_install_list (w : Worklists) : List (List Char) := w.install_list

/-- `Kernel::get_removal_list()`: the removal list, by non-const reference. -/
def Kernel.get_removal_list (w : Worklists) : List (List Char) := w.removal_list

/-- The mutations a caller can make on a `std::vector<std::string_view>` it
holds by non-const reference. -/
inductive VecOp where
  | push_back (name : List Char)
  | pop_back
  | clear
  | erase_at (pos : Nat)
  deriving DecidableEq

/-- The vector after a mutation. -/
def VecOp.run : VecOp → List (List Char) → List (List Char)
  | VecOp.push_back name, v => v ++ [name]
  | VecOp.pop_back, v => v.dropLast
  | VecOp.clear, _ => []
  | VecOp.erase_at pos, v => v.eraseIdx pos

/-- What the interface offers: take one of the two references and mutate the
vector behind it. -/
inductive ListOp where
  | on_install_list (op : VecOp)
  | on_removal_list (op : VecOp)
  deriving DecidableEq

/-- The lists after one interface operation. -/
def ListOp.run (w : Worklists) : ListOp → Worklists
  | ListOp.on_install_list op => { w with install_list := op.run (Kernel.get_install_list w) }
  | ListOp.on_removal_list op => { w with removal_list := op.run (Kernel.get_removal_list w) }

/-- The lists after a sequence of interface operations. -/
def runListOps (w : Worklists) (ops : List ListOp) : Worklists :=
  ops.foldl ListOp.run w

/-- Modelled from the spec: `addToInstallList(name)` of the transaction
coordinator, which the sources do not contain: remove `name` from the removal
list if present, then append it to the install list if not already there. -/
def addToInstallList (w : Worklists) (name : List Char) : Worklists :=
  { install_list :=
      if name ∈ w.install_list then w.install_list else w.install_list ++ [name],
    removal_list := w.removal_list.filter (fun n => n ≠ name) }

/-- Modelled from the spec: `addToRemovalList(name)`, the mirror image of
`addToInstallList`. -/
def addToRemovalList (w : Worklists) (name : List Char) : Worklists :=
  { install_list := w.install_list.filter (fun n => n ≠ name),
    removal_list :=
      if name ∈ w.removal_list then w.removal_list else w.removal_list ++ [name] }

/-- A call of one of the two coordinator operations. -/
inductive AddCall where
  | install (name : List Char)
  | removal (name : List Char)
  deriving DecidableEq

/-- The lists after one coordinator call. -/
def AddCall.run (w : Worklists) : AddCall → Worklists
  | AddCall.install name => addToInstallList w name
  | AddCall.removal name => addToRemovalList w name

/-- The lists after a sequence of coordinator calls. -/
def runAddCalls (w : Worklists) (calls : List AddCall) : Worklists :=
  calls.foldl AddCall.run w

/-- No name is in both lists. -/
def exclusive (w : Worklists) : Prop :=
  ∀ n, n ∈ w.install_list → n ∉ w.removal_list

/-! ## utils.hpp -/

/-- The pieces produced by `ranges::views::split(delim)`: the maximal runs
between delimiters, empty runs included. -/
def split (delim : Char) : List Char → List (List Char)
  | [] => [[]]
  | c :: cs =>
      if c = delim then [] :: split delim cs
      else
        match split delim cs with
        | [] => [[c]]
        | p :: ps => (c :: p) :: ps

/-- `utils::make_split_view`: split, then keep the pieces that are not `""`. -/
def make_split_view (str : List Char) (delim : Char) : List (List Char) :=
  (split delim str).filter (fun rng => rng ≠ [])

/-- `utils::make_multiline`: the same pipeline, collected into a vector. -/
def make_multiline (str : List Char) (delim : Char := '\n') : List (List Char) :=
  (split delim str).filter (fun rng => rng ≠ [])

/-! ## The process environment (libc) -/

/-- The environment block: `NAME` and `VALUE` of each entry. -/
abbrev Env := List (List Char × List Char)

/-- `s.c_str()` as libc reads it: the characters before the first NUL. -/
def c_str (s : List Char) : List Char :=
  s.takeWhile (fun c => c ≠ '\x00')

/-- The value of the first entry of the block whose name is `name`. -/
def envLookup : Env → List Char → Option (List Char)
  | [], _ => none
  | e :: rest, name => if e.1 = name then some e.2 else envLookup rest name

/-- `getenv(name.c_str())`; libc finds no entry for the empty name. -/
def getenv (env : Env) (name : List Char) : Option (List Char) :=
  if (c_str name).isEmpty then none else envLookup env (c_str name)

/-- Names that `setenv` and `unsetenv` accept; any other name is `EINVAL`. -/
def validName (name : List Char) : Bool :=
  !name.isEmpty && !name.contains '='

/-- `unsetenv(name)` for a C string `name`: status and new environment. -/
def unsetenv (env : Env) (name : List Char) : Int × Env :=
  if validName name then (0, env.filter (fun e => e.1 ≠ name)) else (-1, env)

/-- `setenv(name, value, overwrite)` for C strings `name` and `value`: status
and new environment. `nomem` tells whether the allocation of the new entry
fails (`ENOMEM`). -/
def setenv (env : Env) (name value : List Char) (overwrite : Bool) (nomem : Bool) :
    Int × Env :=
  if !validName name then (-1, env)
  else if !overwrite && (envLookup env name).isSome then (0, env)
  else if nomem then (-1, env)
  else (0, (name, value) :: env.filter (fun e => e.1 ≠ name))

/-! ## utils.cpp: restore_clean_environment -/

/-- The two diagnostics the function prints on `stderr`. -/
inductive Diag where
  | cannot_unset
  | cannot_set
  deriving DecidableEq

/-- What a call leaves behind: the environment, the caller's
`previously_set_options` vector, and the diagnostics printed. -/
structure EnvResult where
  environ : Env
  previously_set_options : List (List Char)
  stderr : List Diag
  deriving DecidableEq

/-- The first loop: `unsetenv(previous_option.c_str())` for every recorded
name, report failures. -/
def unset_previous : Env → List Diag → List (List Char) → Env × List Diag
  | env, log, [] => (env, log)
  | env, log, previous_option :: rest =>
      let r := unsetenv env (c_str previous_option)
      if r.1 ≠ 0 then unset_previous r.2 (log ++ [Diag.cannot_unset]) rest
      else unset_previous r.2 log rest

/-- The second loop, over the non-empty lines: `setenv(var_name.c_str(),
var_val.c_str(), 1)`, and the whole `var_name` is recorded on success.
`enomem` lists, call by call, whether `setenv` runs out of memory (no entry:
it does not). The result is `none` when `expr_split[0]` or `expr_split[1]` is
past the last element of the vector. -/
def set_values :
    List Bool → Env → List (List Char) → List Diag → List (List Char) → Option EnvResult
  | _, env, recorded, log, [] => some ⟨env, recorded, log⟩
  | enomem, env, recorded, log, expr :: rest =>
      let expr_split := make_multiline expr '='
      match expr_split.get? 0, expr_split.get? 1 with
      | some var_name, some var_val =>
          let r := setenv env (c_str var_name) (c_str var_val) true (enomem.headD false)
          if r.1 ≠ 0 then
            set_values enomem.tail r.2 recorded (log ++ [Diag.cannot_set]) rest
          else
            set_values enomem.tail r.2 (recorded ++ [var_name]) log rest
      | _, _ => none

/-- `utils::restore_clean_environment(previously_set_options, all_set_values)`
run in environment `environ`. -/
def restore_clean_environment (enomem : List Bool) (environ : Env)
    (previously_set_options : List (List Char)) (all_set_values : List Char) :
    Option EnvResult :=
  let u := unset_previous environ [] previously_set_options
  let set_values_list := make_split_view all_set_values '\n'
  set_values enomem u.1 [] u.2 set_values_list

/-- Two successive calls on the same vector: first with `text`, then with the
empty text. -/
def apply_then_clear (enomem : List Bool) (environ : Env)
    (previously_set_options : List (List Char)) (text : List Char) : Option EnvResult :=
  (restore_clean_environment enomem environ previously_set_options text).bind
    (fun r => restore_clean_environment [] r.environ r.previously_set_options [])

/-- The variable a `NAME=VALUE` record names: the text before its first `=`. -/
def recordName (line : List Char) : List Char :=
  line.takeWhile (fun c => c ≠ '=')

/-- The text after the first `=` of a line. -/
def recordRest (line : List Char) : List Char :=
  (line.dropWhile (fun c => c ≠ '=')).drop 1

/-- A `NAME=VALUE` record: a non-empty name before the first `=`, and after it
a value with at least one character other than `=`. -/
def isRecord (line : List Char) : Bool :=
  !(recordName line).isEmpty && (recordRest line).any (fun c => c != '=')

/-- The value the second loop leaves in the variable with C name `m` when no
`setenv` runs out of memory: the C string of the second piece of the last
line whose first piece has the C string `m`, for a name `setenv` accepts. -/
def lastAssigned : List (List Char) → List Char → Option (List Char)
  | [], _ => none
  | l :: rest, m =>
      match lastAssigned rest m with
      | some v => some v
      | none =>
          if c_str (recordName l) = m ∧ validName m = true then
            ((make_multiline l '=').get? 1).map c_str
          else none

/-! ## utils.cpp: prepare_build_environment -/

/-- A `std::int32_t` value: the representative in `[-2^31, 2^31)`. Signed
overflow is taken to wrap around, as it does on the machines the program
targets. -/
def wrap32 (x : Int) : Int :=
  (x + 2147483648) % 4294967296 - 2147483648

/-- The current working directory, as far as the function moves it. -/
inductive Cwd where
  | elsewhere
  | app_path
  | pkgbuilds_path
  deriving DecidableEq

/-- What the function's `fs::exists` tests can see of the file system:
`app_path` is `~/.cache/cachyos-km`, `pkgbuilds_path` is its `pkgbuilds` entry
and `dot_git` is `pkgbuilds_path / ".git"`. -/
structure FsState where
  app_path : Bool
  pkgbuilds_path : Bool
  dot_git : Bool
  cwd : Cwd
  deriving DecidableEq

/-- What the four `std::system` calls do when they are reached: the value each
returns, and what `git clone` leaves at `pkgbuilds_path`. -/
structure GitOutcome where
  clone_status : Int
  clone_leaves_dir : Bool
  clone_leaves_git : Bool
  checkout_status : Int
  clean_status : Int
  pull_status : Int
  deriving DecidableEq

/-- The observable steps of a run, in order. `terminate` is the call of
`std::terminate` made when `fs::current_path` throws inside the `noexcept`
function. -/
inductive Step where
  | create_directories
  | chdir_app_path
  | remove_all
  | git_clone
  | chdir_pkgbuilds_path
  | git_checkout
  | git_clean
  | git_pull
  | perror
  | terminate
  deriving DecidableEq

/-- A run: the steps taken, the file system left behind, and `cmd_status` at
the final test (`none` when the run never gets there). -/
structure PrepRun where
  steps : List Step
  fs : FsState
  cmd_status : Option Int
  deriving DecidableEq

/-- The calls of throwing `std::filesystem` functions the function makes, in
source order. -/
inductive FsCall where
  | exists_app_path
  | create_directories
  | current_path_app_path
  | exists_pkgbuilds_path
  | exists_dot_git
  | remove_all
  | exists_pkgbuilds_path_again
  | current_path_pkgbuilds_path
  deriving DecidableEq

/-- `utils::prepare_build_environment()`. `failing` lists the calls that fail
for a reason the state does not show (permissions, I/O errors); besides,
`fs::current_path(p)` fails when `p` is missing. A call that fails throws,
and the function is `noexcept`, so the run ends in `std::terminate`. -/
def prepare_build_environment (fs : FsState) (git : GitOutcome)
    (failing : List FsCall := []) : PrepRun :=
  let stop (steps : List Step) (s : FsState) : PrepRun :=
    { steps := steps ++ [Step.terminate], fs := s, cmd_status := none }
  -- if (!fs::exists(app_path)) fs::create_directories(app_path);
  if failing.contains FsCall.exists_app_path then stop [] fs
  else if !fs.app_path && failing.contains FsCall.create_directories then stop [] fs
  else
    let s1 : FsState × List Step :=
      if !fs.app_path then ({ fs with app_path := true }, [Step.create_directories])
      else (fs, [])
    -- fs::current_path(app_path);
    if failing.contains FsCall.current_path_app_path then stop s1.2 s1.1
    else
      let s2 : FsState × List Step :=
        ({ s1.1 with cwd := Cwd.app_path }, s1.2 ++ [Step.chdir_app_path])
      -- if (fs::exists(pkgbuilds_path) && !fs::exists(pkgbuilds_path / ".git"))
      if failing.contains FsCall.exists_pkgbuilds_path then stop s2.2 s2.1
      else if s2.1.pkgbuilds_path && failing.contains FsCall.exists_dot_git then
        stop s2.2 s2.1
      --   fs::remove_all(pkgbuilds_path);
      else if s2.1.pkgbuilds_path && !s2.1.dot_git && failing.contains FsCall.remove_all then
        stop s2.2 s2.1
      else
        let s3 : FsState × List Step :=
          if s2.1.pkgbuilds_path && !s2.1.dot_git then
            ({ s2.1 with pkgbuilds_path := false, dot_git := false },
              s2.2 ++ [Step.remove_all])
          else s2
        -- std::int32_t cmd_status{};
        -- if (!fs::exists(pkgbuilds_path)) cmd_status = std::system("git clone ...");
        if failing.contains FsCall.exists_pkgbuilds_path_again then stop s3.2 s3.1
        else
          let s4 : FsState × List Step × Int :=
            if !s3.1.pkgbuilds_path then
              ({ s3.1 with pkgbuilds_path := git.clone_leaves_dir,
                           dot_git := git.clone_leaves_git },
                s3.2 ++ [Step.git_clone], wrap32 git.clone_status)
            else (s3.1, s3.2, 0)
          -- fs::current_path(pkgbuilds_path);
          if !s4.1.pkgbuilds_path || failing.contains FsCall.current_path_pkgbuilds_path then
            stop s4.2.1 s4.1
          else
            let fs5 : FsState := { s4.1 with cwd := Cwd.pkgbuilds_path }
            -- cmd_status += std::system(...), three times
            let st5 := wrap32 (s4.2.2 + git.checkout_status)
            let st6 := wrap32 (st5 + git.clean_status)
            let st7 := wrap32 (st6 + git.pull_status)
            let steps := s4.2.1 ++
              [Step.chdir_pkgbuilds_path, Step.git_checkout, Step.git_clean, Step.git_pull]
            -- if (cmd_status != 0) std::perror("prepare_build_environment");
            if st7 ≠ 0 then
              { steps := steps ++ [Step.perror], fs := fs5, cmd_status := some st7 }
            else { steps := steps, fs := fs5, cmd_status := some st7 }

/-- Whether `git clone` is reached from file-system state `fs`. -/
def cloneRuns (fs : FsState) : Bool :=
  !fs.pkgbuilds_path || !fs.dot_git

/-- The statuses of the `std::system` calls a run makes, in call order. -/
def statusesReturned (fs : FsState) (git : GitOutcome) : List Int :=
  (if cloneRuns fs then [git.clone_status] else []) ++
    [git.checkout_status, git.clean_status, git.pull_status]

/-! ## Index safety of the parser, as the property words it -/

/-- The pieces of `s` split at every `delim` with the empty pieces discarded,
written with the library's `List.splitOn` rather than with the program's own
pipeline. -/
def piecesDiscardingEmpty (delim : Char) (s : List Char) : List (List Char) :=
  (s.splitOn delim).filter (fun piece => !piece.isEmpty)

/-! ## utils.hpp: replace_all -/

/-- The offset of the first occurrence of `what` in `l`, counted from the
start of `l`; an empty `what` occurs at offset 0, also in the empty string. -/
def findAux (what : List Char) : List Char → Option Nat
  | [] => if what.isPrefixOf [] then some 0 else none
  | c :: cs =>
      if what.isPrefixOf (c :: cs) then some 0
      else (findAux what cs).map (fun i => i + 1)

/-- `std::string::find(what.data(), pos, what.length())`: the first position
`>= pos` at which `what` occurs, `none` for `npos`. -/
def string_find (s what : List Char) (pos : Nat) : Option Nat :=
  if s.length < pos then none
  else (findAux what (s.drop pos)).map (fun i => i + pos)

/-- `std::string::replace(pos, n, with.data(), with.length())`. -/
def string_replace (s : List Char) (pos n : Nat) (with_ : List Char) : List Char :=
  s.take pos ++ with_ ++ s.drop (pos + n)

/-- The `while` loop of `replace_all`, run for at most `fuel` evaluations of
its condition; `none` when the loop is still running after that many. The
result is `count` and the final `inout`. -/
def replace_all_loop (what with_ : List Char) :
    Nat → List Char → Nat → Nat → Option (Nat × List Char)
  | 0, _, _, _ => none
  | fuel + 1, inout, pos, count =>
      match string_find inout what pos with
      | none => some (count, inout)
      | some p =>
          replace_all_loop what with_ fuel (string_replace inout p what.length with_)
            (p + with_.length) (count + 1)

/-- `utils::replace_all(inout, what, with)`. -/
def replace_all (fuel : Nat) (inout what with_ : List Char) : Option (Nat × List Char) :=
  replace_all_loop what with_ fuel inout 0 0

/-- `utils::remove_all(inout, what)`. -/
def remove_all (fuel : Nat) (inout what : List Char) : Option (Nat × List Char) :=
  replace_all fuel inout what []

/-- `utils::fix_path(path)`; `home` is what `g_get_home_dir()` returns. On
the empty path `path[0]` is the terminating NUL. -/
def fix_path (fuel : Nat) (home path : List Char) : Option (List Char) :=
  if path.head? ≠ some '~' then some path
  else (replace_all fuel path "~".toList home).map (fun r => r.2)

/-- One pass over the original text, left to right: at an occurrence of
`what` emit `with_` and skip the occurrence, otherwise copy one character.
Text that was emitted is never looked at again. The result is the number of
occurrences replaced and the text produced; the first argument is the number
of characters of the current occurrence still to skip. -/
def scanReplace (what with_ : List Char) : Nat → List Char → Nat × List Char
  | _, [] => (0, [])
  | skip + 1, _ :: cs => scanReplace what with_ skip cs
  | 0, c :: cs =>
      if what.isPrefixOf (c :: cs) then
        ((scanReplace what with_ (what.length - 1) cs).1 + 1,
          with_ ++ (scanReplace what with_ (what.length - 1) cs).2)
      else
        ((scanReplace what with_ 0 cs).1, c :: (scanReplace what with_ 0 cs).2)

theorem search_ne_nil_iff (hay needle : List Char) (hn : needle ≠ []) :
    search hay needle ≠ [] ↔ needle <:+: hay := by
  induction hay with
  | nil =>
    simp only [search, ne_eq, not_true_eq_false, false_iff]
    intro h
    exact hn (List.infix_nil.mp h)
  | cons h t ih =>
    unfold search
    by_cases hp : needle.isPrefixOf (h :: t) = true
    · rw [if_pos hp]
      have hpre : needle <+: h :: t := List.isPrefixOf_iff_prefix.mp hp
      constructor
      · intro _; exact hpre.isInfix
      · intro _ hnil
        cases needle with
        | nil => exact hn rfl
        | cons a as => simp at hnil
    · rw [if_neg hp, ih, List.infix_cons_iff]
      constructor
      · intro h1; exact Or.inr h1
      · rintro (h1 | h1)
        · have hp2 := List.isPrefixOf_iff_prefix.mpr h1
          exact absurd hp2 hp
        · exact h1

theorem search_isEmpty_eq (hay needle : List Char) (hn : needle ≠ []) :
    (!(search hay needle).isEmpty) = decide (needle <:+: hay) := by
  rw [Bool.eq_iff_iff, decide_eq_true_iff, ← search_ne_nil_iff hay needle hn]
  cases search hay needle <;> simp

/-! ### Splitting -/

theorem split_ne_nil (d : Char) (l : List Char) : split d l ≠ [] := by
  cases l with
  | nil => simp [split]
  | cons c cs =>
    unfold split
    by_cases h : c = d
    · simp [h]
    · rw [if_neg h]
      cases split d cs <;> simp

theorem split_cons_ne (d c : Char) (cs : List Char) (h : c ≠ d) :
    ∃ p ps, split d cs = p :: ps ∧ split d (c :: cs) = (c :: p) :: ps := by
  cases hs : split d cs with
  | nil => exact absurd hs (split_ne_nil d cs)
  | cons p ps =>
    refine ⟨p, ps, rfl, ?_⟩
    rw [split, if_neg h, hs]

theorem split_append_delim (d : Char) (n r : List Char) (hn : d ∉ n) :
    split d (n ++ d :: r) = n :: split d r := by
  induction n with
  | nil => simp [split]
  | cons c cs ih =>
    have hc : c ≠ d := fun h => hn (by simp [h])
    have hcs : d ∉ cs := fun h => hn (List.mem_cons_of_mem _ h)
    rw [List.cons_append, split, if_neg hc, ih hcs]

theorem split_no_delim (d : Char) (l : List Char) (hl : d ∉ l) : split d l = [l] := by
  induction l with
  | nil => rfl
  | cons c cs ih =>
    have hc : c ≠ d := fun h => hl (by simp [h])
    have hcs : d ∉ cs := fun h => hl (List.mem_cons_of_mem _ h)
    rw [split, if_neg hc, ih hcs]

theorem filter_split_ne_nil (d : Char) (r : List Char) (h : ∃ c ∈ r, c ≠ d) :
    (split d r).filter (fun rng => rng ≠ []) ≠ [] := by
  induction r with
  | nil => obtain ⟨c, hc, _⟩ := h; simp at hc
  | cons x xs ih =>
    by_cases hx : x = d
    · obtain ⟨c, hc, hcd⟩ := h
      have hc2 : c ∈ xs := by
        rcases List.mem_cons.mp hc with h1 | h1
        · exact absurd (h1.trans hx) hcd
        · exact h1
      rw [split, if_pos hx]
      simpa using ih ⟨c, hc2, hcd⟩
    · obtain ⟨p, ps, _, h2⟩ := split_cons_ne d x xs hx
      rw [h2]
      simp

theorem split_eq_splitOn (d : Char) (l : List Char) : split d l = l.splitOn d := by
  induction l with
  | nil => rfl
  | cons c cs ih =>
    unfold List.splitOn at ih ⊢
    rw [List.splitOnP_cons]
    by_cases h : c = d
    · rw [split, if_pos h, ih]
      simp [h]
    · obtain ⟨p, ps, h1, h2⟩ := split_cons_ne d c cs h
      rw [h2, ← ih, h1]
      simp [h, List.modifyHead]

theorem piecesDiscardingEmpty_eq (d : Char) (s : List Char) :
    piecesDiscardingEmpty d s = make_multiline s d := by
  unfold piecesDiscardingEmpty make_multiline
  rw [← split_eq_splitOn]
  apply List.filter_congr
  intro x _
  cases x <;> simp

theorem piecesDiscardingEmpty_eq_view (d : Char) (s : List Char) :
    piecesDiscardingEmpty d s = make_split_view s d :=
  piecesDiscardingEmpty_eq d s

theorem split_piece_length_le (d : Char) (l : List Char) :
    ∀ p ∈ split d l, p.length ≤ l.length := by
  induction l with
  | nil => intro p hp; simp [split] at hp; simp [hp]
  | cons c cs ih =>
    intro p hp
    by_cases h : c = d
    · rw [split, if_pos h] at hp
      rcases List.mem_cons.mp hp with h1 | h1
      · simp [h1]
      · have := ih p h1
        simp only [List.length_cons]; omega
    · obtain ⟨p0, ps, h1, h2⟩ := split_cons_ne d c cs h
      rw [h2] at hp
      rcases List.mem_cons.mp hp with h3 | h3
      · have := ih p0 (by rw [h1]; simp)
        rw [h3]; simp only [List.length_cons]; omega
      · have := ih p (by rw [h1]; exact List.mem_cons_of_mem _ h3)
        simp only [List.length_cons]; omega

theorem split_piece_length_lt (d : Char) (l : List Char) (hd : d ∈ l) :
    ∀ p ∈ split d l, p.length < l.length := by
  induction l with
  | nil => simp at hd
  | cons c cs ih =>
    intro p hp
    by_cases h : c = d
    · rw [split, if_pos h] at hp
      rcases List.mem_cons.mp hp with h1 | h1
      · simp [h1]
      · have := split_piece_length_le d cs p h1
        simp only [List.length_cons]; omega
    · have hdcs : d ∈ cs := by
        rcases List.mem_cons.mp hd with h1 | h1
        · exact absurd h1.symm h
        · exact h1
      obtain ⟨p0, ps, h1, h2⟩ := split_cons_ne d c cs h
      rw [h2] at hp
      rcases List.mem_cons.mp hp with h3 | h3
      · have := ih hdcs p0 (by rw [h1]; simp)
        rw [h3]; simp only [List.length_cons]; omega
      · have := ih hdcs p (by rw [h1]; exact List.mem_cons_of_mem _ h3)
        simp only [List.length_cons]; omega

/-! ### Records -/

theorem dropWhile_head_false (p : Char → Bool) (l : List Char) (y : Char) (ys : List Char)
    (h : l.dropWhile p = y :: ys) : p y = false := by
  induction l with
  | nil => simp at h
  | cons x xs ih =>
    rw [List.dropWhile_cons] at h
    by_cases hx : p x = true
    · rw [if_pos hx] at h; exact ih h
    · rw [if_neg hx] at h
      injection h with h1 _
      rw [← h1]; simpa using hx

theorem record_decompose (l : List Char) (h : isRecord l = true) :
    l = recordName l ++ '=' :: recordRest l := by
  unfold isRecord at h
  simp only [Bool.and_eq_true, List.any_eq_true] at h
  obtain ⟨_, c, hc, _⟩ := h
  unfold recordRest at hc
  unfold recordName recordRest
  cases hd : l.dropWhile (fun c => c ≠ '=') with
  | nil => rw [hd] at hc; simp at hc
  | cons y ys =>
    have hy : y = '=' := by
      have := dropWhile_head_false (fun c => decide (c ≠ '=')) l y ys hd
      simpa using this
    have := List.takeWhile_append_dropWhile (fun c => decide (c ≠ '=')) l
    rw [hd, hy] at this
    simpa using this.symm

theorem recordName_no_eq (l : List Char) : '=' ∉ recordName l := by
  intro h
  have := List.mem_takeWhile_imp h
  simp at this

theorem recordName_valid (l : List Char) (h : isRecord l = true) :
    validName (recordName l) = true := by
  have h1 := recordName_no_eq l
  unfold isRecord at h
  simp only [Bool.and_eq_true] at h
  unfold validName
  simp only [Bool.and_eq_true]
  refine ⟨h.1, ?_⟩
  simpa using h1

theorem pieces_of_record (l : List Char) (h : isRecord l = true) :
    ∃ v rest, make_multiline l '=' = recordName l :: v :: rest := by
  have hdec := record_decompose l h
  have hne : recordName l ≠ [] := by
    unfold isRecord at h
    simp only [Bool.and_eq_true] at h
    intro h0
    rw [h0] at h
    simp at h
  have hrest : ∃ c ∈ recordRest l, c ≠ '=' := by
    unfold isRecord at h
    simp only [Bool.and_eq_true, List.any_eq_true] at h
    obtain ⟨_, c, hc, hcd⟩ := h
    exact ⟨c, hc, by simpa using hcd⟩
  have hf := filter_split_ne_nil '=' (recordRest l) hrest
  unfold make_multiline
  rw [hdec, split_append_delim '=' _ _ (recordName_no_eq l), ← hdec]
  cases hq : (split '=' (recordRest l)).filter (fun rng => rng ≠ []) with
  | nil => exact absurd hq hf
  | cons v rest =>
    refine ⟨v, rest, ?_⟩
    rw [List.filter_cons_of_pos (by simpa using hne), hq]

/-! ### The environment -/

theorem envLookup_filter_self (env : Env) (n : List Char) :
    envLookup (env.filter (fun e => e.1 ≠ n)) n = none := by
  induction env with
  | nil => rfl
  | cons e rest ih =>
    by_cases h : e.1 = n
    · rw [List.filter_cons_of_neg (by simp [h])]; exact ih
    · rw [List.filter_cons_of_pos (by simpa using h), envLookup, if_neg h]; exact ih

theorem envLookup_filter_ne (env : Env) (n m : List Char) (hm : m ≠ n) :
    envLookup (env.filter (fun e => e.1 ≠ n)) m = envLookup env m := by
  induction env with
  | nil => rfl
  | cons e rest ih =>
    by_cases h : e.1 = n
    · have hem : e.1 ≠ m := fun h2 => hm (h2.symm.trans h)
      rw [List.filter_cons_of_neg (by simp [h]), ih, envLookup, if_neg hem]
    · rw [List.filter_cons_of_pos (by simpa using h)]
      by_cases h2 : e.1 = m
      · rw [envLookup, if_pos h2, envLookup, if_pos h2]
      · rw [envLookup, if_neg h2, ih, envLookup, if_neg h2]

theorem envLookup_filter_none (env : Env) (n m : List Char) (h : envLookup env m = none) :
    envLookup (env.filter (fun e => e.1 ≠ n)) m = none := by
  by_cases hm : m = n
  · rw [hm]; exact envLookup_filter_self env n
  · rw [envLookup_filter_ne env n m hm]; exact h

theorem setenv_ok (env : Env) (name value : List Char) (hv : validName name = true) :
    setenv env name value true false = (0, (name, value) :: env.filter (fun e => e.1 ≠ name)) := by
  simp [setenv, hv]

theorem envLookup_setenv (env : Env) (name value m : List Char) (hv : validName name = true) :
    envLookup (setenv env name value true false).2 m =
      if name = m then some value else envLookup env m := by
  rw [setenv_ok env name value hv]
  by_cases h : name = m
  · simp [envLookup, h]
  · simp only [envLookup, if_neg h]
    exact envLookup_filter_ne env name m (fun h2 => h h2.symm)

theorem unsetenv_keeps_none (env : Env) (n m : List Char) (h : envLookup env m = none) :
    envLookup (unsetenv env n).2 m = none := by
  unfold unsetenv
  by_cases hv : validName n = true
  · rw [if_pos hv]; exact envLookup_filter_none env n m h
  · rw [if_neg hv]; exact h

theorem unsetenv_self (env : Env) (n : List Char) (hv : validName n = true) :
    envLookup (unsetenv env n).2 n = none := by
  unfold unsetenv
  rw [if_pos hv]; exact envLookup_filter_self env n

theorem unset_previous_keeps_none (L : List (List Char)) (env : Env) (log : List Diag)
    (m : List Char) (h : envLookup env m = none) :
    envLookup (unset_previous env log L).1 m = none := by
  induction L generalizing env log with
  | nil => exact h
  | cons x xs ih =>
    unfold unset_previous
    have h1 := unsetenv_keeps_none env (c_str x) m h
    by_cases hs : (unsetenv env (c_str x)).1 ≠ 0
    · simp only [if_pos hs]; exact ih _ _ h1
    · simp only [if_neg hs]; exact ih _ _ h1

theorem unset_previous_unsets (L : List (List Char)) (env : Env) (log : List Diag)
    (hL : ∀ n ∈ L, validName (c_str n) = true) :
    ∀ n ∈ L, envLookup (unset_previous env log L).1 (c_str n) = none := by
  induction L generalizing env log with
  | nil => intro n hn; simp at hn
  | cons x xs ih =>
    intro n hn
    have hx : validName (c_str x) = true := hL x (by simp)
    have hxs : ∀ n ∈ xs, validName (c_str n) = true :=
      fun n h => hL n (List.mem_cons_of_mem _ h)
    unfold unset_previous
    have key : ∀ log2,
        envLookup (unset_previous (unsetenv env (c_str x)).2 log2 xs).1 (c_str n) = none := by
      intro log2
      rcases List.mem_cons.mp hn with h1 | h1
      · rw [h1]
        exact unset_previous_keeps_none xs _ _ (c_str x) (unsetenv_self env (c_str x) hx)
      · exact ih _ _ hxs n h1
    by_cases hs : (unsetenv env (c_str x)).1 ≠ 0
    · simp only [if_pos hs]; exact key _
    · simp only [if_neg hs]; exact key _

/-! ### The second loop -/

theorem c_str_subset (s : List Char) (c : Char) (h : c ∈ c_str s) : c ∈ s :=
  (List.takeWhile_sublist _).subset h

theorem c_str_no_nul (s : List Char) : '\x00' ∉ c_str s := by
  intro h
  have := List.mem_takeWhile_imp h
  simp at this

theorem c_str_of_no_nul (s : List Char) (h : '\x00' ∉ s) : c_str s = s := by
  unfold c_str
  rw [List.takeWhile_eq_self_iff]
  intro c hc
  have : c ≠ '\x00' := fun h0 => h (h0 ▸ hc)
  simpa using this

theorem c_str_length_le (s : List Char) : (c_str s).length ≤ s.length :=
  (List.takeWhile_sublist _).length_le

theorem validName_c_str_recordName (l : List Char) (h : c_str (recordName l) ≠ []) :
    validName (c_str (recordName l)) = true := by
  have h1 : '=' ∉ c_str (recordName l) :=
    fun hm => recordName_no_eq l (c_str_subset _ _ hm)
  unfold validName
  simp only [Bool.and_eq_true, Bool.not_eq_true', List.isEmpty_eq_false]
  exact ⟨h, by simpa using h1⟩

theorem setenv_invalid (env : Env) (name value : List Char) (b : Bool)
    (hv : validName name = false) : setenv env name value true b = (-1, env) := by
  simp [setenv, hv]

theorem set_values_spec (lines : List (List Char)) (enomem : List Bool) (env : Env)
    (recorded : List (List Char)) (log : List Diag)
    (hmem : ∀ b ∈ enomem, b = false) (hrec : ∀ l ∈ lines, isRecord l = true) :
    ∃ env2 log2, set_values enomem env recorded log lines
        = some ⟨env2, recorded ++
            (lines.filter (fun l => validName (c_str (recordName l)))).map recordName, log2⟩ ∧
      ∀ m, envLookup env2 m = (lastAssigned lines m).orElse (fun _ => envLookup env m) := by
  induction lines generalizing enomem env recorded log with
  | nil => exact ⟨env, log, by simp [set_values], fun n => by simp [lastAssigned]⟩
  | cons l rest ih =>
    obtain ⟨v, more, hp⟩ := pieces_of_record l (hrec l (by simp))
    have hhead : enomem.headD false = false := by
      cases enomem with
      | nil => rfl
      | cons b bs => exact hmem b (by simp)
    have htail : ∀ b ∈ enomem.tail, b = false := fun b hb => hmem b (List.mem_of_mem_tail hb)
    have hrest : ∀ x ∈ rest, isRecord x = true := fun x hx => hrec x (List.mem_cons_of_mem _ hx)
    by_cases hv : validName (c_str (recordName l)) = true
    · obtain ⟨env2, log2, h1, h2⟩ := ih enomem.tail
        (setenv env (c_str (recordName l)) (c_str v) true false).2
        (recorded ++ [recordName l]) log htail hrest
      refine ⟨env2, log2, ?_, ?_⟩
      · unfold set_values
        simp only [hp, List.get?_cons_zero, List.get?_cons_succ, hhead]
        have hst : (setenv env (c_str (recordName l)) (c_str v) true false).1 = 0 := by
          rw [setenv_ok env _ _ hv]
        simp only [hst, ne_eq, not_true_eq_false, if_false]
        have hf : List.filter (fun l => validName (c_str (recordName l))) (l :: rest) =
            l :: List.filter (fun l => validName (c_str (recordName l))) rest :=
          List.filter_cons_of_pos hv
        rw [h1, hf]
        simp
      · intro m
        rw [h2 m, envLookup_setenv env _ _ m hv]
        simp only [lastAssigned]
        cases lastAssigned rest m with
        | some w => simp
        | none =>
          by_cases hn : c_str (recordName l) = m
          · have hvm : validName m = true := hn ▸ hv
            simp [hn, hp, hvm]
          · simp [hn]
    · have hv2 : validName (c_str (recordName l)) = false := by simpa using hv
      obtain ⟨env2, log2, h1, h2⟩ := ih enomem.tail env recorded
        (log ++ [Diag.cannot_set]) htail hrest
      refine ⟨env2, log2, ?_, ?_⟩
      · unfold set_values
        simp only [hp, List.get?_cons_zero, List.get?_cons_succ, hhead]
        rw [setenv_invalid env _ _ _ hv2]
        simp only [ne_eq, Int.reduceNeg, Int.neg_eq_zero, one_ne_zero, not_false_eq_true,
          if_true]
        have hf : List.filter (fun l => validName (c_str (recordName l))) (l :: rest) =
            List.filter (fun l => validName (c_str (recordName l))) rest :=
          List.filter_cons_of_neg hv
        rw [h1, hf]
      · intro m
        rw [h2 m]
        simp only [lastAssigned]
        cases lastAssigned rest m with
        | some w => simp
        | none =>
          by_cases hn : c_str (recordName l) = m
          · have hvm : validName m = false := hn ▸ hv2
            simp [hvm]
          · simp [hn]

theorem set_values_out_of_bounds (lines : List (List Char))
    (hbad : ∃ l ∈ lines, (make_multiline l '=').get? 1 = none) (enomem : List Bool)
    (env : Env) (recorded : List (List Char)) (log : List Diag) :
    set_values enomem env recorded log lines = none := by
  induction lines generalizing enomem env recorded log with
  | nil => obtain ⟨l, hl, _⟩ := hbad; simp at hl
  | cons x xs ih =>
    unfold set_values
    cases h0 : (make_multiline x '=').get? 0 with
    | none => simp only [h0]
    | some var_name =>
      cases h1 : (make_multiline x '=').get? 1 with
      | none => simp only [h0, h1]
      | some var_val =>
        have hxs : ∃ l ∈ xs, (make_multiline l '=').get? 1 = none := by
          obtain ⟨l, hl, hl1⟩ := hbad
          rcases List.mem_cons.mp hl with h2 | h2
          · rw [h2, h1] at hl1; cases hl1
          · exact ⟨l, h2, hl1⟩
        simp only [h0, h1]
        split
        · exact ih hxs _ _ _ _
        · exact ih hxs _ _ _ _

theorem pieces_of_record_rest (l : List Char) (h : isRecord l = true) :
    make_multiline l '=' = recordName l :: make_multiline (recordRest l) '=' := by
  have hdec := record_decompose l h
  have hne : recordName l ≠ [] := by
    unfold isRecord at h
    simp only [Bool.and_eq_true] at h
    intro h0
    rw [h0] at h
    simp at h
  unfold make_multiline
  rw [hdec, split_append_delim '=' _ _ (recordName_no_eq l), ← hdec]
  rw [List.filter_cons_of_pos (by simpa using hne)]

theorem lastAssigned_none (after : List (List Char)) (m : List Char)
    (h : ∀ x ∈ after, c_str (recordName x) ≠ m) : lastAssigned after m = none := by
  induction after with
  | nil => rfl
  | cons x xs ih =>
    have hx : ¬ (c_str (recordName x) = m ∧ validName m = true) :=
      fun hc => h x (by simp) hc.1
    simp only [lastAssigned, ih (fun y hy => h y (List.mem_cons_of_mem _ hy)), if_neg hx]

theorem lastAssigned_last (before after : List (List Char)) (l m v : List Char)
    (hafter : ∀ x ∈ after, c_str (recordName x) ≠ m) (hl : c_str (recordName l) = m)
    (hm : validName m = true) (hv : (make_multiline l '=').get? 1 = some v) :
    lastAssigned (before ++ l :: after) m = some (c_str v) := by
  induction before with
  | nil =>
    simp only [List.nil_append, lastAssigned, lastAssigned_none after m hafter,
      if_pos (And.intro hl hm), hv, Option.map_some']
  | cons x xs ih =>
    rw [List.cons_append, lastAssigned, ih]

/-- C2 (counterexample): the environment holds `FOO=old`, the text is the
single record `FOO=1`, and the `setenv` of the first call fails; the failed
name is not recorded, so the second call unsets nothing and `FOO` is still
set afterwards. -/
theorem round_trip_setenv_failure :
    (make_split_view "FOO=1".toList '\n').all isRecord = true ∧
    (apply_then_clear [true] [("FOO".toList, "old".toList)] [] "FOO=1".toList).map
        (fun r => (getenv r.environ (recordName "FOO=1".toList), r.previously_set_options))
      = some (some "old".toList, []) := by
  decide

/-- C2 (amended): when every non-empty line of the text is a `NAME=VALUE`
record and every `setenv` of the first call succeeds, the call with the text
followed by the call with the empty text completes, leaves no variable named
in the text set, and leaves the recorded list empty. -/
theorem round_trip_when_setenv_succeeds (enomem : List Bool) (environ : Env)
    (previously_set_options : List (List Char)) (text : List Char)
    (hmem : ∀ b ∈ enomem, b = false)
    (hrec : ∀ l ∈ make_split_view text '\n', isRecord l = true) :
    ∃ r, apply_then_clear enomem environ previously_set_options text = some r ∧
      r.previously_set_options = [] ∧
      ∀ l ∈ make_split_view text '\n', getenv r.environ (recordName l) = none := by
  obtain ⟨env2, log2, h1, _⟩ := set_values_spec (make_split_view text '\n') enomem
    (unset_previous environ [] previously_set_options).1 []
    (unset_previous environ [] previously_set_options).2 hmem hrec
  have hvalid : ∀ n ∈ ((make_split_view text '\n').filter
      (fun l => validName (c_str (recordName l)))).map recordName,
      validName (c_str n) = true := by
    intro n hn
    obtain ⟨l, hl, hln⟩ := List.mem_map.mp hn
    rw [← hln]
    exact (List.mem_filter.mp hl).2
  have hempty : make_split_view [] '\n' = [] := by decide
  have hrun : apply_then_clear enomem environ previously_set_options text =
      some ⟨(unset_previous env2 [] (((make_split_view text '\n').filter
          (fun l => validName (c_str (recordName l)))).map recordName)).1, [],
        (unset_previous env2 [] (((make_split_view text '\n').filter
          (fun l => validName (c_str (recordName l)))).map recordName)).2⟩ := by
    unfold apply_then_clear
    unfold restore_clean_environment
    simp only [h1, List.nil_append, Option.some_bind, hempty, set_values]
  refine ⟨_, hrun, rfl, ?_⟩
  intro l hl
  unfold getenv
  by_cases hemp : (c_str (recordName l)).isEmpty = true
  · rw [if_pos hemp]
  · rw [if_neg hemp]
    have hne : c_str (recordName l) ≠ [] := by
      intro h0
      rw [h0] at hemp
      exact hemp rfl
    have hv := validName_c_str_recordName l hne
    exact unset_previous_unsets _ env2 _ hvalid (recordName l)
      (List.mem_map.mpr ⟨l, List.mem_filter.mpr ⟨hl, hv⟩, rfl⟩)

/-- C2 (witness): the amended round trip at the text `FOO=1\nBAR=2`. -/
theorem round_trip_when_setenv_succeeds_witness :
    ∃ r, apply_then_clear [] [("FOO".toList, "old".toList)] ["OLD".toList]
        "FOO=1\nBAR=2".toList = some r ∧
      r.previously_set_options = [] ∧
      ∀ l ∈ make_split_view "FOO=1\nBAR=2".toList '\n',
        getenv r.environ (recordName l) = none :=
  round_trip_when_setenv_succeeds [] [("FOO".toList, "old".toList)] ["OLD".toList]
    "FOO=1\nBAR=2".toList (by decide) (by decide)

/-- C3 (code evaluated at the failing input): on `FOO=1\nBADLINE\nBAR=2` the
vector built from `BADLINE` has one element, so `expr_split[1]` lies past the
last element; the run has no defined result, whatever the environment and the
recorded list are. -/
theorem malformed_line_out_of_bounds (enomem : List Bool) (environ : Env)
    (previously_set_options : List (List Char)) :
    restore_clean_environment enomem environ previously_set_options
      "FOO=1\nBADLINE\nBAR=2".toList = none := by
  unfold restore_clean_environment
  exact set_values_out_of_bounds _ ⟨"BADLINE".toList, by decide, by decide⟩ _ _ _ _

/-- C4 (counterexample): the line `A=b=c` sets `A` to `b`, not to the text
`b=c` that follows its first `=`. -/
theorem further_eq_truncates_value :
    recordRest "A=b=c".toList = "b=c".toList ∧
    (restore_clean_environment [] [] [] "A=b=c".toList).map
        (fun r => getenv r.environ (recordName "A=b=c".toList)) = some (some "b".toList) ∧
    (restore_clean_environment [] [] [] "A=b=c".toList).map
        (fun r => getenv r.environ (recordName "A=b=c".toList)) ≠ some (some "b=c".toList) := by
  decide

/-- C4 (amended): a record line is split at every `=` and the empty pieces are
dropped; the variable named by the C string of the text before the first `=`
is set to the C string of the first remaining piece of the text after it,
and that is the whole text after the first `=` exactly when this text holds
no further `=` and no NUL. Stated for the final environment, for a line whose
name does not begin with a NUL and that no later line overrides, with every
line a record and no `setenv` running out of memory. -/
theorem line_sets_name_to_second_piece (enomem : List Bool) (environ : Env)
    (previously_set_options : List (List Char)) (text : List Char)
    (before after : List (List Char)) (line : List Char)
    (hlines : piecesDiscardingEmpty '\n' text = before ++ line :: after)
    (hmem : ∀ b ∈ enomem, b = false)
    (hrec : ∀ l ∈ piecesDiscardingEmpty '\n' text, isRecord l = true)
    (hname : c_str (recordName line) ≠ [])
    (hlater : ∀ x ∈ after, c_str (recordName x) ≠ c_str (recordName line)) :
    ∃ r, restore_clean_environment enomem environ previously_set_options text = some r ∧
      getenv r.environ (recordName line)
        = ((piecesDiscardingEmpty '=' (recordRest line)).head?).map c_str ∧
      (getenv r.environ (recordName line) = some (recordRest line) ↔
        '=' ∉ recordRest line ∧ '\x00' ∉ recordRest line) := by
  rw [piecesDiscardingEmpty_eq_view] at hlines hrec
  obtain ⟨env2, log2, h1, h2⟩ := set_values_spec (make_split_view text '\n') enomem
    (unset_previous environ [] previously_set_options).1 []
    (unset_previous environ [] previously_set_options).2 hmem hrec
  have hline : isRecord line = true := hrec line (by rw [hlines]; simp)
  obtain ⟨v, more, hp⟩ := pieces_of_record line hline
  have hpr := pieces_of_record_rest line hline
  have hv : (make_multiline line '=').get? 1 = some v := by rw [hp]; rfl
  have hrestp : make_multiline (recordRest line) '=' = v :: more := by
    rw [hp] at hpr
    injection hpr with _ h3
    exact h3.symm
  have hhead : ((piecesDiscardingEmpty '=' (recordRest line)).head?).map c_str
      = some (c_str v) := by
    rw [piecesDiscardingEmpty_eq, hrestp]; rfl
  have hvalid := validName_c_str_recordName line hname
  have hget : getenv env2 (recordName line) = some (c_str v) := by
    unfold getenv
    have hemp : ¬ (c_str (recordName line)).isEmpty = true := by
      intro h0
      exact hname (List.isEmpty_iff.mp h0)
    rw [if_neg hemp, h2, hlines,
      lastAssigned_last before after line _ v hlater rfl hvalid hv]
    rfl
  have hne : recordRest line ≠ [] := by
    unfold isRecord at hline
    simp only [Bool.and_eq_true, List.any_eq_true] at hline
    obtain ⟨_, c, hc, _⟩ := hline
    exact List.ne_nil_of_mem hc
  have hvmem : v ∈ split '=' (recordRest line) := by
    have : v ∈ make_multiline (recordRest line) '=' := by rw [hrestp]; simp
    unfold make_multiline at this
    exact (List.mem_filter.mp this).1
  refine ⟨_, h1, ?_, ?_⟩
  · rw [hhead]; exact hget
  · show getenv env2 (recordName line) = some (recordRest line) ↔ _
    rw [hget]
    constructor
    · intro heq
      simp only [Option.some.injEq] at heq
      have hno : '=' ∉ recordRest line := by
        intro hin
        have h3 := split_piece_length_lt '=' (recordRest line) hin v hvmem
        have h4 := c_str_length_le v
        rw [heq] at h4
        omega
      have hsingle : make_multiline (recordRest line) '=' = [recordRest line] := by
        unfold make_multiline
        rw [split_no_delim '=' _ hno, List.filter_cons_of_pos (by simpa using hne)]
        rfl
      rw [hsingle] at hrestp
      injection hrestp with h5 _
      rw [← h5] at heq
      refine ⟨hno, ?_⟩
      have := c_str_no_nul (recordRest line)
      rw [heq] at this
      exact this
    · rintro ⟨hno, hnul⟩
      have hsingle : make_multiline (recordRest line) '=' = [recordRest line] := by
        unfold make_multiline
        rw [split_no_delim '=' _ hno, List.filter_cons_of_pos (by simpa using hne)]
        rfl
      rw [hsingle] at hrestp
      injection hrestp with h5 _
      rw [← h5, c_str_of_no_nul _ hnul]

/-- C4 (witness): the amended statement at the second line of
`A=1\nB=x=y\nC=3`. -/
theorem line_sets_name_to_second_piece_witness :
    ∃ r, restore_clean_environment [] [] ["OLD".toList] "A=1\nB=x=y\nC=3".toList = some r ∧
      getenv r.environ (recordName "B=x=y".toList)
        = ((piecesDiscardingEmpty '=' (recordRest "B=x=y".toList)).head?).map c_str ∧
      (getenv r.environ (recordName "B=x=y".toList) = some (recordRest "B=x=y".toList) ↔
        '=' ∉ recordRest "B=x=y".toList ∧ '\x00' ∉ recordRest "B=x=y".toList) :=
  line_sets_name_to_second_piece [] [] ["OLD".toList] "A=1\nB=x=y\nC=3".toList
    ["A=1".toList] ["C=3".toList] "B=x=y".toList (by decide) (by decide) (by decide)
    (by decide) (by decide)

theorem wrap32_sum3 (a b c : Int) :
    wrap32 (wrap32 (wrap32 (0 + a) + b) + c) = wrap32 (a + b + c) := by
  unfold wrap32; omega

theorem wrap32_sum4 (k a b c : Int) :
    wrap32 (wrap32 (wrap32 (wrap32 k + a) + b) + c) = wrap32 (k + a + b + c) := by
  unfold wrap32; omega

theorem wrap32_small (x : Int) (h0 : 0 ≤ x) (h1 : x < 2147483648) : wrap32 x = x := by
  unfold wrap32; omega

theorem contains_false_of_only (failing : List FsCall) (only c : FsCall)
    (h : ∀ x ∈ failing, x = only) (hc : c ≠ only) : failing.contains c = false := by
  cases hcon : failing.contains c with
  | false => rfl
  | true =>
    have hmem : c ∈ failing := List.elem_iff.mp hcon
    exact absurd (h c hmem) hc

/-- C6 (counterexample): the checkout directory exists without `.git` and
cannot be deleted; `fs::remove_all` throws inside the `noexcept` function,
the run ends in `std::terminate` with the directory still there, and no
`git clone` is run. -/
theorem undeletable_directory_stops_the_run :
    prepare_build_environment ⟨true, true, false, Cwd.elsewhere⟩ ⟨0, true, true, 0, 0, 0⟩
        [FsCall.remove_all] =
      { steps := [Step.chdir_app_path, Step.terminate],
        fs := ⟨true, true, false, Cwd.app_path⟩,
        cmd_status := none } ∧
    Step.remove_all ∉ (prepare_build_environment ⟨true, true, false, Cwd.elsewhere⟩
        ⟨0, true, true, 0, 0, 0⟩ [FsCall.remove_all]).steps ∧
    Step.git_clone ∉ (prepare_build_environment ⟨true, true, false, Cwd.elsewhere⟩
        ⟨0, true, true, 0, 0, 0⟩ [FsCall.remove_all]).steps := by
  decide

/-- C6 (amended): when the checkout directory exists without a `.git` entry
and no `std::filesystem` call before the clone fails, the run removes the
directory and next runs `git clone`, and the directory the run ends with is
what the clone left, not the old one; when the directory exists with a `.git`
entry the run neither removes it nor clones, whichever calls fail. -/
theorem self_repair (fs : FsState) (git : GitOutcome) (failing : List FsCall)
    (hdir : fs.pkgbuilds_path = true) :
    (fs.dot_git = false →
      (∀ c ∈ failing, c = FsCall.current_path_pkgbuilds_path) →
      ((if fs.app_path then [] else [Step.create_directories]) ++
          [Step.chdir_app_path, Step.remove_all, Step.git_clone])
        <+: (prepare_build_environment fs git failing).steps ∧
      (prepare_build_environment fs git failing).fs.pkgbuilds_path = git.clone_leaves_dir ∧
      (prepare_build_environment fs git failing).fs.dot_git = git.clone_leaves_git) ∧
    (fs.dot_git = true →
      Step.remove_all ∉ (prepare_build_environment fs git failing).steps ∧
      Step.git_clone ∉ (prepare_build_environment fs git failing).steps) := by
  obtain ⟨app, pk, dg, cwd⟩ := fs
  simp only at hdir
  subst hdir
  constructor
  · intro h hfs
    simp only at h
    subst h
    have c1 := contains_false_of_only failing _ FsCall.exists_app_path hfs (by decide)
    have c2 := contains_false_of_only failing _ FsCall.create_directories hfs (by decide)
    have c3 := contains_false_of_only failing _ FsCall.current_path_app_path hfs (by decide)
    have c4 := contains_false_of_only failing _ FsCall.exists_pkgbuilds_path hfs (by decide)
    have c5 := contains_false_of_only failing _ FsCall.exists_dot_git hfs (by decide)
    have c6 := contains_false_of_only failing _ FsCall.remove_all hfs (by decide)
    have c7 := contains_false_of_only failing _ FsCall.exists_pkgbuilds_path_again hfs
      (by decide)
    cases app <;> cases hcl : git.clone_leaves_dir <;>
      cases c8 : failing.contains FsCall.current_path_pkgbuilds_path <;>
      simp only [prepare_build_environment, hcl, c1, c2, c3, c4, c5, c6, c7, c8,
        Bool.not_true, Bool.not_false, Bool.and_true, Bool.and_false, Bool.or_true,
        Bool.or_false, Bool.true_or, Bool.false_or, Bool.or_self, Bool.and_self, if_true,
        if_false, Bool.false_eq_true, List.nil_append, List.cons_append,
        List.append_assoc] <;>
      first
        | exact ⟨⟨_, rfl⟩, trivial, trivial⟩
        | exact ⟨⟨_, rfl⟩, rfl, rfl⟩
        | (split <;> exact ⟨⟨_, rfl⟩, rfl, rfl⟩)
  · intro h
    simp only at h
    subst h
    cases app <;>
      simp only [prepare_build_environment, Bool.not_true, Bool.not_false, Bool.and_true,
        Bool.and_false, Bool.true_and, Bool.false_and, if_true, if_false, Bool.false_eq_true,
        List.nil_append, List.cons_append, List.append_assoc] <;>
      split_ifs <;> simp

/-- C6 (witness): a directory without `.git`, and one with it. -/
theorem self_repair_witness :
    ([Step.chdir_app_path, Step.remove_all, Step.git_clone]
        <+: (prepare_build_environment ⟨true, true, false, Cwd.elsewhere⟩
              ⟨0, true, true, 0, 0, 0⟩ []).steps) ∧
    (Step.remove_all ∉ (prepare_build_environment ⟨true, true, true, Cwd.elsewhere⟩
        ⟨0, true, true, 0, 0, 0⟩ []).steps ∧
      Step.git_clone ∉ (prepare_build_environment ⟨true, true, true, Cwd.elsewhere⟩
        ⟨0, true, true, 0, 0, 0⟩ []).steps) :=
  ⟨((self_repair ⟨true, true, false, Cwd.elsewhere⟩ ⟨0, true, true, 0, 0, 0⟩ [] rfl).1 rfl
      (by decide)).1,
   (self_repair ⟨true, true, true, Cwd.elsewhere⟩ ⟨0, true, true, 0, 0, 0⟩ [] rfl).2 rfl⟩

/-- C7 (code evaluated at the failing input): no checkout directory, and a
`git clone` that fails with exit code 128 and leaves none. The run stops at
`fs::current_path(pkgbuilds_path)`: no checkout, clean or pull is run and the
final status test is never reached. -/
theorem failed_clone_stops_the_run :
    prepare_build_environment ⟨true, false, false, Cwd.elsewhere⟩
        ⟨32768, false, false, 0, 0, 0⟩ =
      { steps := [Step.chdir_app_path, Step.git_clone, Step.terminate],
        fs := ⟨true, false, false, Cwd.app_path⟩,
        cmd_status := none } := by
  decide

/-- C8 (counterexample): a valid checkout, `git checkout` returns 1 and
`git clean` returns -1; the run reaches the final test with `cmd_status` 0
and prints no diagnostic although two statuses are nonzero. -/
theorem cancelling_statuses_not_reported :
    (∀ x ∈ statusesReturned ⟨true, true, true, Cwd.elsewhere⟩ ⟨0, false, false, 1, -1, 0⟩,
      -2147483648 ≤ x ∧ x < 2147483648) ∧
    (∃ x ∈ statusesReturned ⟨true, true, true, Cwd.elsewhere⟩ ⟨0, false, false, 1, -1, 0⟩,
      x ≠ 0) ∧
    (prepare_build_environment ⟨true, true, true, Cwd.elsewhere⟩
      ⟨0, false, false, 1, -1, 0⟩).cmd_status = some 0 ∧
    Step.perror ∉ (prepare_build_environment ⟨true, true, true, Cwd.elsewhere⟩
      ⟨0, false, false, 1, -1, 0⟩).steps := by
  decide

theorem prepare_final_status (fs : FsState) (git : GitOutcome)
    (hreach : cloneRuns fs = true → git.clone_leaves_dir = true) :
    (prepare_build_environment fs git).cmd_status
        = some (wrap32 (statusesReturned fs git).sum) ∧
    (Step.perror ∈ (prepare_build_environment fs git).steps ↔
      wrap32 (statusesReturned fs git).sum ≠ 0) := by
  obtain ⟨app, pk, dg, cwd⟩ := fs
  obtain ⟨cs, cld, clg, ks, ns, ps⟩ := git
  simp only [cloneRuns] at hreach
  cases app <;> cases pk <;> cases dg <;>
    simp only [Bool.not_true, Bool.not_false, Bool.or_true, Bool.or_false, Bool.true_or,
      forall_const, Bool.false_eq_true, false_implies] at hreach <;>
    (try subst hreach) <;>
    simp only [prepare_build_environment, statusesReturned, cloneRuns, List.contains_nil,
      Bool.not_true,
      Bool.not_false, Bool.and_true, Bool.and_false, Bool.or_true, Bool.or_false, if_true,
      if_false, Bool.false_eq_true, List.nil_append, List.cons_append, List.append_assoc,
      List.sum_cons, List.sum_nil, wrap32_sum3, wrap32_sum4, Bool.true_or, Bool.or_self,
      Bool.and_self, Bool.false_or, add_zero, ← add_assoc] <;>
    split <;> simp_all

theorem reaches_final_test_without_failure (fs : FsState) (git : GitOutcome)
    (failing : List FsCall)
    (h : (prepare_build_environment fs git failing).cmd_status ≠ none) :
    prepare_build_environment fs git failing = prepare_build_environment fs git [] := by
  obtain ⟨app, pk, dg, cwd⟩ := fs
  cases app <;> cases pk <;> cases dg <;> cases git.clone_leaves_dir <;>
    simp only [prepare_build_environment, List.contains_nil, Bool.not_true, Bool.not_false, Bool.and_true, Bool.and_false,
      Bool.true_and, Bool.false_and, Bool.or_true, Bool.or_false, Bool.true_or, Bool.false_or,
      if_true, if_false, Bool.false_eq_true, ne_eq, not_true_eq_false, not_false_eq_true] at h ⊢ <;>
    (try (cases c0 : failing.contains FsCall.exists_app_path <;>
      (try simp only [c0, List.contains_nil, Bool.not_true, Bool.not_false, Bool.and_true, Bool.and_false,
      Bool.true_and, Bool.false_and, Bool.or_true, Bool.or_false, Bool.true_or, Bool.false_or,
      if_true, if_false, Bool.false_eq_true, ne_eq, not_true_eq_false, not_false_eq_true] at h) <;>
      (try simp only [c0, List.contains_nil, Bool.not_true, Bool.not_false, Bool.and_true, Bool.and_false,
      Bool.true_and, Bool.false_and, Bool.or_true, Bool.or_false, Bool.true_or, Bool.false_or,
      if_true, if_false, Bool.false_eq_true, ne_eq, not_true_eq_false, not_false_eq_true] at *))) <;>
    (try (cases c1 : failing.contains FsCall.create_directories <;>
      (try simp only [c1, List.contains_nil, Bool.not_true, Bool.not_false, Bool.and_true, Bool.and_false,
      Bool.true_and, Bool.false_and, Bool.or_true, Bool.or_false, Bool.true_or, Bool.false_or,
      if_true, if_false, Bool.false_eq_true, ne_eq, not_true_eq_false, not_false_eq_true] at h) <;>
      (try simp only [c1, List.contains_nil, Bool.not_true, Bool.not_false, Bool.and_true, Bool.and_false,
      Bool.true_and, Bool.false_and, Bool.or_true, Bool.or_false, Bool.true_or, Bool.false_or,
      if_true, if_false, Bool.false_eq_true, ne_eq, not_true_eq_false, not_false_eq_true] at *))) <;>
    (try (cases c2 : failing.contains FsCall.current_path_app_path <;>
      (try simp only [c2, List.contains_nil, Bool.not_true, Bool.not_false, Bool.and_true, Bool.and_false,
      Bool.true_and, Bool.false_and, Bool.or_true, Bool.or_false, Bool.true_or, Bool.false_or,
      if_true, if_false, Bool.false_eq_true, ne_eq, not_true_eq_false, not_false_eq_true] at h) <;>
      (try simp only [c2, List.contains_nil, Bool.not_true, Bool.not_false, Bool.and_true, Bool.and_false,
      Bool.true_and, Bool.false_and, Bool.or_true, Bool.or_false, Bool.true_or, Bool.false_or,
      if_true, if_false, Bool.false_eq_true, ne_eq, not_true_eq_false, not_false_eq_true] at *))) <;>
    (try (cases c3 : failing.contains FsCall.exists_pkgbuilds_path <;>
      (try simp only [c3, List.contains_nil, Bool.not_true, Bool.not_false, Bool.and_true, Bool.and_false,
      Bool.true_and, Bool.false_and, Bool.or_true, Bool.or_false, Bool.true_or, Bool.false_or,
      if_true, if_false, Bool.false_eq_true, ne_eq, not_true_eq_false, not_false_eq_true] at h) <;>
      (try simp only [c3, List.contains_nil, Bool.not_true, Bool.not_false, Bool.and_true, Bool.and_false,
      Bool.true_and, Bool.false_and, Bool.or_true, Bool.or_false, Bool.true_or, Bool.false_or,
      if_true, if_false, Bool.false_eq_true, ne_eq, not_true_eq_false, not_false_eq_true] at *))) <;>
    (try (cases c4 : failing.contains FsCall.exists_dot_git <;>
      (try simp only [c4, List.contains_nil, Bool.not_true, Bool.not_false, Bool.and_true, Bool.and_false,
      Bool.true_and, Bool.false_and, Bool.or_true, Bool.or_false, Bool.true_or, Bool.false_or,
      if_true, if_false, Bool.false_eq_true, ne_eq, not_true_eq_false, not_false_eq_true] at h) <;>
      (try simp only [c4, List.contains_nil, Bool.not_true, Bool.not_false, Bool.and_true, Bool.and_false,
      Bool.true_and, Bool.false_and, Bool.or_true, Bool.or_false, Bool.true_or, Bool.false_or,
      if_true, if_false, Bool.false_eq_true, ne_eq, not_true_eq_false, not_false_eq_true] at *))) <;>
    (try (cases c5 : failing.contains FsCall.remove_all <;>
      (try simp only [c5, List.contains_nil, Bool.not_true, Bool.not_false, Bool.and_true, Bool.and_false,
      Bool.true_and, Bool.false_and, Bool.or_true, Bool.or_false, Bool.true_or, Bool.false_or,
      if_true, if_false, Bool.false_eq_true, ne_eq, not_true_eq_false, not_false_eq_true] at h) <;>
      (try simp only [c5, List.contains_nil, Bool.not_true, Bool.not_false, Bool.and_true, Bool.and_false,
      Bool.true_and, Bool.false_and, Bool.or_true, Bool.or_false, Bool.true_or, Bool.false_or,
      if_true, if_false, Bool.false_eq_true, ne_eq, not_true_eq_false, not_false_eq_true] at *))) <;>
    (try (cases c6 : failing.contains FsCall.exists_pkgbuilds_path_again <;>
      (try simp only [c6, List.contains_nil, Bool.not_true, Bool.not_false, Bool.and_true, Bool.and_false,
      Bool.true_and, Bool.false_and, Bool.or_true, Bool.or_false, Bool.true_or, Bool.false_or,
      if_true, if_false, Bool.false_eq_true, ne_eq, not_true_eq_false, not_false_eq_true] at h) <;>
      (try simp only [c6, List.contains_nil, Bool.not_true, Bool.not_false, Bool.and_true, Bool.and_false,
      Bool.true_and, Bool.false_and, Bool.or_true, Bool.or_false, Bool.true_or, Bool.false_or,
      if_true, if_false, Bool.false_eq_true, ne_eq, not_true_eq_false, not_false_eq_true] at *))) <;>
    (try (cases c7 : failing.contains FsCall.current_path_pkgbuilds_path <;>
      (try simp only [c7, List.contains_nil, Bool.not_true, Bool.not_false, Bool.and_true, Bool.and_false,
      Bool.true_and, Bool.false_and, Bool.or_true, Bool.or_false, Bool.true_or, Bool.false_or,
      if_true, if_false, Bool.false_eq_true, ne_eq, not_true_eq_false, not_false_eq_true] at h) <;>
      (try simp only [c7, List.contains_nil, Bool.not_true, Bool.not_false, Bool.and_true, Bool.and_false,
      Bool.true_and, Bool.false_and, Bool.or_true, Bool.or_false, Bool.true_or, Bool.false_or,
      if_true, if_false, Bool.false_eq_true, ne_eq, not_true_eq_false, not_false_eq_true] at *)))

/-- C8 (amended): in every run that gets past the change into the checkout,
the diagnostic is printed exactly when the 32-bit sum of the statuses
returned is nonzero; when every status is non-negative and below `2^29` this
is exactly when at least one of them is nonzero. -/
theorem diagnostic_iff_accumulated_nonzero (fs : FsState) (git : GitOutcome)
    (hreach : cloneRuns fs = true → git.clone_leaves_dir = true) :
    (Step.perror ∈ (prepare_build_environment fs git).steps ↔
      wrap32 (statusesReturned fs git).sum ≠ 0) ∧
    ((∀ x ∈ statusesReturned fs git, 0 ≤ x ∧ x < 536870912) →
      (Step.perror ∈ (prepare_build_environment fs git).steps ↔
        ∃ x ∈ statusesReturned fs git, x ≠ 0)) := by
  have h := (prepare_final_status fs git hreach).2
  refine ⟨h, ?_⟩
  intro hsmall
  rw [h]
  have hbound : ∀ l : List Int, (∀ x ∈ l, 0 ≤ x ∧ x < 536870912) →
      0 ≤ l.sum ∧ l.sum ≤ 536870911 * l.length ∧ (l.sum = 0 ↔ ∀ x ∈ l, x = 0) := by
    intro l
    induction l with
    | nil => intro _; simp
    | cons y ys ih =>
      intro hl
      have hy := hl y (by simp)
      obtain ⟨i1, i2, i3⟩ := ih (fun x hx => hl x (List.mem_cons_of_mem _ hx))
      simp only [List.sum_cons, List.length_cons, List.mem_cons, forall_eq_or_imp]
      refine ⟨by omega, by push_cast; omega, ?_⟩
      constructor
      · intro h0
        have hy0 : y = 0 := by omega
        exact ⟨hy0, i3.mp (by omega)⟩
      · rintro ⟨hy0, hr⟩
        have := i3.mpr hr
        omega
  obtain ⟨b1, b2, b3⟩ := hbound _ hsmall
  have hlen : (statusesReturned fs git).length ≤ 4 := by
    unfold statusesReturned
    split <;> simp
  have hw : wrap32 (statusesReturned fs git).sum = (statusesReturned fs git).sum := by
    apply wrap32_small _ b1
    have : ((statusesReturned fs git).length : Int) ≤ 4 := by exact_mod_cast hlen
    omega
  rw [hw, ne_eq, b3]
  push_neg
  rfl

/-- C8 (witness): a valid checkout whose `git clean` exits with code 1. -/
theorem diagnostic_iff_accumulated_nonzero_witness :
    (cloneRuns ⟨true, true, true, Cwd.elsewhere⟩ = true → true = true) ∧
    (Step.perror ∈ (prepare_build_environment ⟨true, true, true, Cwd.elsewhere⟩
        ⟨0, true, true, 0, 256, 0⟩).steps ↔
      wrap32 (statusesReturned ⟨true, true, true, Cwd.elsewhere⟩
        ⟨0, true, true, 0, 256, 0⟩).sum ≠ 0) ∧
    (Step.perror ∈ (prepare_build_environment ⟨true, true, true, Cwd.elsewhere⟩
        ⟨0, true, true, 0, 256, 0⟩).steps ↔
      ∃ x ∈ statusesReturned ⟨true, true, true, Cwd.elsewhere⟩ ⟨0, true, true, 0, 256, 0⟩,
        x ≠ 0) :=
  ⟨fun _ => rfl,
   (diagnostic_iff_accumulated_nonzero ⟨true, true, true, Cwd.elsewhere⟩
      ⟨0, true, true, 0, 256, 0⟩ (fun _ => rfl)).1,
   (diagnostic_iff_accumulated_nonzero ⟨true, true, true, Cwd.elsewhere⟩
      ⟨0, true, true, 0, 256, 0⟩ (fun _ => rfl)).2 (by decide)⟩

/-! ### The install and removal lists -/

theorem addToInstallList_exclusive (w : Worklists) (name : List Char) (h : exclusive w) :
    exclusive (addToInstallList w name) := by
  intro n hn hr
  unfold addToInstallList at hn hr
  simp only [List.mem_filter, decide_eq_true_eq] at hr
  by_cases hmem : name ∈ w.install_list
  · simp only [if_pos hmem] at hn
    exact h n hn hr.1
  · simp only [if_neg hmem, List.mem_append, List.mem_singleton] at hn
    rcases hn with h1 | h1
    · exact h n h1 hr.1
    · exact hr.2 h1

theorem addToRemovalList_exclusive (w : Worklists) (name : List Char) (h : exclusive w) :
    exclusive (addToRemovalList w name) := by
  intro n hn hr
  unfold addToRemovalList at hn hr
  simp only [List.mem_filter, decide_eq_true_eq] at hn
  by_cases hmem : name ∈ w.removal_list
  · simp only [if_pos hmem] at hr
    exact h n hn.1 hr
  · simp only [if_neg hmem, List.mem_append, List.mem_singleton] at hr
    rcases hr with h1 | h1
    · exact h n hn.1 h1
    · exact hn.2 h1

theorem runAddCalls_exclusive (calls : List AddCall) (w : Worklists) (h : exclusive w) :
    exclusive (runAddCalls w calls) := by
  induction calls generalizing w with
  | nil => exact h
  | cons c cs ih =>
    unfold runAddCalls
    rw [List.foldl_cons]
    apply ih
    cases c with
    | install name => exact addToInstallList_exclusive w name h
    | removal name => exact addToRemovalList_exclusive w name h

/-- C9 (counterexample): through the two references a caller pushes `linux`
onto the install list and then onto the removal list; the name is in both
lists when the second call returns. -/
theorem raw_references_allow_overlap :
    "linux".toList ∈ Kernel.get_install_list (runListOps ⟨[], []⟩
      [ListOp.on_install_list (VecOp.push_back "linux".toList),
       ListOp.on_removal_list (VecOp.push_back "linux".toList)]) ∧
    "linux".toList ∈ Kernel.get_removal_list (runListOps ⟨[], []⟩
      [ListOp.on_install_list (VecOp.push_back "linux".toList),
       ListOp.on_removal_list (VecOp.push_back "linux".toList)]) ∧
    ¬ exclusive (runListOps ⟨[], []⟩
      [ListOp.on_install_list (VecOp.push_back "linux".toList),
       ListOp.on_removal_list (VecOp.push_back "linux".toList)]) :=
  ⟨by decide, by decide, fun h => h "linux".toList (by decide) (by decide)⟩

/-- C9 (amended): starting from empty lists, after every call of every
sequence of `addToInstallList` / `addToRemovalList` calls no name is in both
lists. -/
theorem add_calls_keep_lists_exclusive (calls : List AddCall) (k : Nat) :
    exclusive (runAddCalls ⟨[], []⟩ (calls.take k)) :=
  runAddCalls_exclusive _ _ (fun _ hn _ => by simp at hn)

/-- C10 (counterexample): `linux-lts-lto-git` contains `lts` and `git`, and
is classified `lto optimized`, because `lto` is tested first. -/
theorem lts_git_with_lto_not_longterm :
    "lts".toList <:+: "linux-lts-lto-git".toList ∧
    "git".toList <:+: "linux-lts-lto-git".toList ∧
    Kernel.category { m_name := "linux-lts-lto-git".toList } = "lto optimized" ∧
    Kernel.category { m_name := "linux-lts-lto-git".toList } ≠ "longterm" := by
  decide

/-- C10 (amended): a package name that contains `lts` and `git` and does not
contain `lto` is classified `longterm`. -/
theorem lts_git_without_lto_longterm (k : Kernel)
    (hlts : "lts".toList <:+: k.m_name) (_hgit : "git".toList <:+: k.m_name)
    (hlto : ¬ "lto".toList <:+: k.m_name) :
    k.category = "longterm" := by
  unfold Kernel.category
  simp only [search_isEmpty_eq k.m_name "lto".toList (by decide),
    search_isEmpty_eq k.m_name "lts".toList (by decide)]
  rw [if_neg (by simpa using hlto), if_pos (by simpa using hlts)]

/-- C10 (witness): `linux-cachyos-lts-git`. -/
theorem lts_git_without_lto_longterm_witness :
    Kernel.category { m_name := "linux-cachyos-lts-git".toList } = "longterm" :=
  lts_git_without_lto_longterm { m_name := "linux-cachyos-lts-git".toList }
    (by decide) (by decide) (by decide)

/-- C1: `Kernel::category()` returns the label of the first keyword, in the
fixed order lto, lts, zen, hardened, next, mainline, git, that is a substring
of the package name, and `stable` when no keyword is a substring; only
substring containment is consulted, never the position of a keyword. -/
theorem category_eq_classifySpec (k : Kernel) :
    k.category = classifySpec k.m_name := by
  unfold Kernel.category classifySpec keywordTable
  simp only [search_isEmpty_eq k.m_name "lto".toList (by decide),
    search_isEmpty_eq k.m_name "lts".toList (by decide),
    search_isEmpty_eq k.m_name "zen".toList (by decide),
    search_isEmpty_eq k.m_name "hardened".toList (by decide),
    search_isEmpty_eq k.m_name "next".toList (by decide),
    search_isEmpty_eq k.m_name "mainline".toList (by decide),
    search_isEmpty_eq k.m_name "git".toList (by decide), List.find?]
  generalize decide ("lto".toList <:+: k.m_name) = b1
  generalize decide ("lts".toList <:+: k.m_name) = b2
  generalize decide ("zen".toList <:+: k.m_name) = b3
  generalize decide ("hardened".toList <:+: k.m_name) = b4
  generalize decide ("next".toList <:+: k.m_name) = b5
  generalize decide ("mainline".toList <:+: k.m_name) = b6
  generalize decide ("git".toList <:+: k.m_name) = b7
  cases b1 <;> cases b2 <;> cases b3 <;> cases b4 <;> cases b5 <;> cases b6 <;> cases b7 <;> rfl

/-! ### Index safety -/

theorem set_values_in_bounds (lines : List (List Char))
    (hok : ∀ l ∈ lines, 2 ≤ (make_multiline l '=').length) (enomem : List Bool)
    (env : Env) (recorded : List (List Char)) (log : List Diag) :
    ∃ r, set_values enomem env recorded log lines = some r := by
  induction lines generalizing enomem env recorded log with
  | nil => exact ⟨_, rfl⟩
  | cons x xs ih =>
    have hx := hok x (by simp)
    have hxs : ∀ l ∈ xs, 2 ≤ (make_multiline l '=').length :=
      fun l hl => hok l (List.mem_cons_of_mem _ hl)
    unfold set_values
    cases hm : make_multiline x '=' with
    | nil => rw [hm] at hx; simp at hx
    | cons a rest =>
      cases rest with
      | nil => rw [hm] at hx; simp at hx
      | cons b more =>
        simp only [List.get?_cons_zero, List.get?_cons_succ]
        split
        · exact ih hxs _ _ _ _
        · exact ih hxs _ _ _ _

theorem restore_isSome_iff (enomem : List Bool) (environ : Env)
    (previously_set_options : List (List Char)) (text : List Char) :
    (restore_clean_environment enomem environ previously_set_options text).isSome = true ↔
      ∀ l ∈ make_split_view text '\n', 2 ≤ (make_multiline l '=').length := by
  unfold restore_clean_environment
  constructor
  · intro h l hl
    by_contra hlt
    have hnone : (make_multiline l '=').get? 1 = none :=
      List.get?_eq_none.mpr (by omega)
    rw [set_values_out_of_bounds _ ⟨l, hl, hnone⟩] at h
    simp at h
  · intro h
    obtain ⟨r, hr⟩ := set_values_in_bounds _ h enomem
      (unset_previous environ [] previously_set_options).1 []
      (unset_previous environ [] previously_set_options).2
    simp only [hr, Option.isSome_some]

theorem pieces_only_delims (d : Char) (n : Nat) :
    make_multiline (List.replicate n d) d = [] := by
  unfold make_multiline
  induction n with
  | zero => simp [split]
  | succ k ih =>
    rw [List.replicate_succ, split, if_pos rfl, List.filter_cons_of_neg (by simp)]
    exact ih

/-- C11 (counterexample): the line `=A=B` has an empty name, yet it splits
into the two pieces `A` and `B`; both accesses are in bounds, the call
completes and sets `A` to `B`. -/
theorem empty_name_line_in_bounds :
    recordName "=A=B".toList = [] ∧
    piecesDiscardingEmpty '=' "=A=B".toList = ["A".toList, "B".toList] ∧
    (restore_clean_environment [] [] [] "=A=B".toList).isSome = true ∧
    (restore_clean_environment [] [] [] "=A=B".toList).map
        (fun r => getenv r.environ "A".toList) = some (some "B".toList) := by
  decide

/-- C11 (amended): the accesses `expr_split[0]` and `expr_split[1]` are in bounds on
every line, so that the call has a defined result, exactly when every
non-empty line of the text, split at every `=` with the empty pieces
discarded, has at least two pieces. A line `NAME=` with nothing after the
`=`, a line `=VALUE`, a line of `=` characters only and a line without `=`
all have fewer than two pieces (`name`, `value` and `line` free of `=`). -/
theorem index_safety (enomem : List Bool) (environ : Env)
    (previously_set_options : List (List Char)) (text name value line : List Char) (n : Nat)
    (hname : '=' ∉ name) (hvalue : '=' ∉ value) (hline : '=' ∉ line) :
    ((restore_clean_environment enomem environ previously_set_options text).isSome = true ↔
      ∀ l ∈ piecesDiscardingEmpty '\n' text, 2 ≤ (piecesDiscardingEmpty '=' l).length) ∧
    (piecesDiscardingEmpty '=' (name ++ ['='])).length < 2 ∧
    (piecesDiscardingEmpty '=' ('=' :: value)).length < 2 ∧
    (piecesDiscardingEmpty '=' (List.replicate n '=')).length < 2 ∧
    (piecesDiscardingEmpty '=' line).length < 2 := by
  have hfilter : ∀ x : List Char, ([x].filter (fun rng => decide (rng ≠ []))).length < 2 := by
    intro x
    exact Nat.lt_of_le_of_lt (List.length_filter_le _ _) (by simp)
  refine ⟨?_, ?_, ?_, ?_, ?_⟩
  · rw [restore_isSome_iff, piecesDiscardingEmpty_eq]
    constructor
    · intro h l hl
      rw [piecesDiscardingEmpty_eq]
      exact h l hl
    · intro h l hl
      have := h l hl
      rw [piecesDiscardingEmpty_eq] at this
      exact this
  · rw [piecesDiscardingEmpty_eq]
    unfold make_multiline
    rw [split_append_delim '=' name [] hname]
    simp only [split]
    rw [List.filter_cons, List.filter_cons_of_neg (by simp)]
    split <;> simp
  · rw [piecesDiscardingEmpty_eq]
    unfold make_multiline
    rw [split, if_pos rfl, split_no_delim '=' value hvalue,
      List.filter_cons_of_neg (by simp)]
    exact hfilter value
  · rw [piecesDiscardingEmpty_eq, pieces_only_delims]
    simp
  · rw [piecesDiscardingEmpty_eq]
    unfold make_multiline
    rw [split_no_delim '=' line hline]
    exact hfilter line

/-- C11 (witness): the text `A=1\nB=2`, and the lines `NAME=`, `=VALUE`, `==`
and `BADLINE`. -/
theorem index_safety_witness :
    ('=' ∉ "NAME".toList ∧ '=' ∉ "VALUE".toList ∧ '=' ∉ "BADLINE".toList) ∧
    ((restore_clean_environment [] [] ["OLD".toList] "A=1\nB=2".toList).isSome = true ↔
      ∀ l ∈ piecesDiscardingEmpty '\n' "A=1\nB=2".toList,
        2 ≤ (piecesDiscardingEmpty '=' l).length) ∧
    (piecesDiscardingEmpty '=' ("NAME".toList ++ ['='])).length < 2 ∧
    (piecesDiscardingEmpty '=' ('=' :: "VALUE".toList)).length < 2 ∧
    (piecesDiscardingEmpty '=' (List.replicate 2 '=')).length < 2 ∧
    (piecesDiscardingEmpty '=' "BADLINE".toList).length < 2 :=
  ⟨⟨by decide, by decide, by decide⟩,
   index_safety [] [] ["OLD".toList] "A=1\nB=2".toList "NAME".toList "VALUE".toList
     "BADLINE".toList 2 (by decide) (by decide) (by decide)⟩

/-! ### replace_all -/

theorem isPrefixOf_length_le (what l : List Char) (h : what.isPrefixOf l = true) :
    what.length ≤ l.length := by
  have hp := List.isPrefixOf_iff_prefix.mp h
  exact hp.length_le

theorem scanReplace_skip (what with_ : List Char) (n : Nat) (l : List Char) :
    scanReplace what with_ n l = scanReplace what with_ 0 (l.drop n) := by
  induction l generalizing n with
  | nil => simp [scanReplace]
  | cons c cs ih =>
    cases n with
    | zero => rfl
    | succ k => rw [scanReplace, ih k, List.drop_succ_cons]

theorem findAux_some_le (what : List Char) (rest : List Char) (j : Nat)
    (h : findAux what rest = some j) : j + what.length ≤ rest.length := by
  induction rest generalizing j with
  | nil =>
    unfold findAux at h
    by_cases hp : what.isPrefixOf [] = true
    · rw [if_pos hp] at h
      have := isPrefixOf_length_le what [] hp
      injection h with h1
      omega
    · rw [if_neg hp] at h; cases h
  | cons c cs ih =>
    unfold findAux at h
    by_cases hp : what.isPrefixOf (c :: cs) = true
    · rw [if_pos hp] at h
      have := isPrefixOf_length_le what (c :: cs) hp
      injection h with h1
      omega
    · rw [if_neg hp] at h
      cases hf : findAux what cs with
      | none => rw [hf] at h; cases h
      | some i =>
        rw [hf] at h
        have := ih i hf
        simp only [Option.map_some', Option.some.injEq] at h
        simp only [List.length_cons]
        omega

theorem scanReplace_of_find_none (what with_ : List Char) (rest : List Char)
    (h : findAux what rest = none) : scanReplace what with_ 0 rest = (0, rest) := by
  induction rest with
  | nil => rfl
  | cons c cs ih =>
    unfold findAux at h
    by_cases hp : what.isPrefixOf (c :: cs) = true
    · rw [if_pos hp] at h; cases h
    · rw [if_neg hp] at h
      have hcs : findAux what cs = none := by
        cases hf : findAux what cs with
        | none => rfl
        | some i => rw [hf] at h; cases h
      rw [scanReplace, if_neg hp, ih hcs]

theorem scanReplace_of_find_some (what with_ : List Char) (hw : what ≠ [])
    (rest : List Char) (j : Nat) (h : findAux what rest = some j) :
    scanReplace what with_ 0 rest =
      ((scanReplace what with_ 0 (rest.drop (j + what.length))).1 + 1,
        rest.take j ++ with_ ++ (scanReplace what with_ 0 (rest.drop (j + what.length))).2) := by
  have hlen : 1 ≤ what.length := by
    cases what with
    | nil => exact absurd rfl hw
    | cons a as => simp
  induction rest generalizing j with
  | nil =>
    have := findAux_some_le what [] j h
    simp only [List.length_nil] at this
    omega
  | cons c cs ih =>
    unfold findAux at h
    by_cases hp : what.isPrefixOf (c :: cs) = true
    · rw [if_pos hp] at h
      injection h with h1
      subst h1
      rw [scanReplace, if_pos hp, scanReplace_skip what with_ (what.length - 1) cs]
      have hd : (c :: cs).drop (0 + what.length) = cs.drop (what.length - 1) := by
        rw [Nat.zero_add]
        obtain ⟨m, hm⟩ : ∃ m, what.length = m + 1 := ⟨what.length - 1, by omega⟩
        rw [hm, List.drop_succ_cons, Nat.add_sub_cancel]
      rw [hd]
      rfl
    · rw [if_neg hp] at h
      cases hf : findAux what cs with
      | none => rw [hf] at h; cases h
      | some i =>
        rw [hf] at h
        simp only [Option.map_some', Option.some.injEq] at h
        subst h
        rw [scanReplace, if_neg hp, ih i hf]
        have hd : (c :: cs).drop (i + 1 + what.length) = cs.drop (i + what.length) := by
          rw [show i + 1 + what.length = (i + what.length) + 1 by omega, List.drop_succ_cons]
        rw [hd]
        rfl

theorem string_find_append (done rest what : List Char) :
    string_find (done ++ rest) what done.length =
      (findAux what rest).map (fun i => i + done.length) := by
  unfold string_find
  rw [if_neg (by simp), List.drop_left]

theorem string_replace_append (done rest with_ : List Char) (j n : Nat)
    (hj : j ≤ rest.length) :
    string_replace (done ++ rest) (j + done.length) n with_ =
      (done ++ rest.take j ++ with_) ++ rest.drop (j + n) ∧
    (done ++ rest.take j ++ with_).length = j + done.length + with_.length := by
  constructor
  · unfold string_replace
    rw [show j + done.length = done.length + j by omega, List.take_append,
      show done.length + j + n = done.length + (j + n) by omega, List.drop_append]
  · simp only [List.length_append, List.length_take]
    omega

theorem replace_all_loop_spec (what with_ : List Char) (hw : what ≠ []) (fuel : Nat) :
    ∀ (rest done : List Char) (count : Nat), rest.length < fuel →
      replace_all_loop what with_ fuel (done ++ rest) done.length count =
        some (count + (scanReplace what with_ 0 rest).1,
          done ++ (scanReplace what with_ 0 rest).2) := by
  have hlen : 1 ≤ what.length := by
    cases what with
    | nil => exact absurd rfl hw
    | cons a as => simp
  induction fuel with
  | zero => intro rest done count h; omega
  | succ f ih =>
    intro rest done count hfuel
    unfold replace_all_loop
    rw [string_find_append]
    cases hf : findAux what rest with
    | none =>
      simp only [Option.map_none']
      rw [scanReplace_of_find_none what with_ rest hf]
      rfl
    | some j =>
      have hle := findAux_some_le what rest j hf
      obtain ⟨h1, h2⟩ := string_replace_append done rest with_ j what.length (by omega)
      simp only [Option.map_some']
      rw [h1, ← h2, ih (rest.drop (j + what.length)) (done ++ rest.take j ++ with_) (count + 1)
        (by rw [List.length_drop]; omega),
        scanReplace_of_find_some what with_ hw rest j hf]
      simp only [List.append_assoc, Nat.add_assoc, Nat.add_comm 1]

theorem scanReplace_length (what with_ : List Char) (hw : what ≠ []) (l : List Char) :
    ∀ n, n ≤ l.length →
      (scanReplace what with_ n l).2.length + (scanReplace what with_ n l).1 * what.length + n
        = l.length + (scanReplace what with_ n l).1 * with_.length := by
  have hlen : 1 ≤ what.length := by
    cases what with
    | nil => exact absurd rfl hw
    | cons a as => simp
  induction l with
  | nil => intro n hn; simp only [List.length_nil] at hn; simp [scanReplace]; omega
  | cons c cs ih =>
    intro n hn
    cases n with
    | succ k =>
      rw [scanReplace]
      have := ih k (by simp only [List.length_cons] at hn; omega)
      simp only [List.length_cons]
      omega
    | zero =>
      rw [scanReplace]
      by_cases hp : what.isPrefixOf (c :: cs) = true
      · rw [if_pos hp]
        have hpl := isPrefixOf_length_le what (c :: cs) hp
        simp only [List.length_cons] at hpl
        have := ih (what.length - 1) (by omega)
        simp only [List.length_append, List.length_cons, Nat.add_mul, Nat.one_mul]
        omega
      · rw [if_neg hp]
        have := ih 0 (by omega)
        simp only [List.length_cons]
        omega

theorem scanReplace_count_le (what with_ : List Char) (hw : what ≠ []) (l : List Char) :
    ∀ n, n ≤ l.length → (scanReplace what with_ n l).1 * what.length + n ≤ l.length := by
  have hlen : 1 ≤ what.length := by
    cases what with
    | nil => exact absurd rfl hw
    | cons a as => simp
  induction l with
  | nil => intro n hn; simp only [List.length_nil] at hn; simp [scanReplace]; omega
  | cons c cs ih =>
    intro n hn
    cases n with
    | succ k =>
      rw [scanReplace]
      have := ih k (by simp only [List.length_cons] at hn; omega)
      simp only [List.length_cons]
      omega
    | zero =>
      rw [scanReplace]
      by_cases hp : what.isPrefixOf (c :: cs) = true
      · rw [if_pos hp]
        have hpl := isPrefixOf_length_le what (c :: cs) hp
        simp only [List.length_cons] at hpl
        have := ih (what.length - 1) (by omega)
        simp only [List.length_cons, Nat.add_mul, Nat.one_mul]
        omega
      · rw [if_neg hp]
        have := ih 0 (by omega)
        simp only [List.length_cons]
        omega

theorem replace_all_loop_empty_what (with_ : List Char) (fuel : Nat) :
    ∀ (inout : List Char) (pos count : Nat), pos ≤ inout.length →
      replace_all_loop [] with_ fuel inout pos count = none := by
  induction fuel with
  | zero => intro inout pos count _; rfl
  | succ f ih =>
    intro inout pos count hpos
    unfold replace_all_loop
    have hfind : string_find inout [] pos = some pos := by
      unfold string_find
      rw [if_neg (by omega)]
      cases inout.drop pos <;> simp [findAux]
    rw [hfind]
    apply ih
    unfold string_replace
    simp only [List.length_append, List.length_take, List.length_drop, List.length_nil]
    omega

/-- C12: for a non-empty `what` the loop of `replace_all` ends: with any fuel
above the length of `inout` it returns, and what it returns is the result of
one left-to-right pass over the original text that never looks at replaced
text, namely the number `k` of replacements and a text of length
`|inout| - k*|what| + k*|with|`, whatever `with` holds, `what` included; so
`fix_path` returns for every home directory. For an empty `what` the loop is
still running after any number of steps. -/
theorem replace_all_terminates (inout what with_ : List Char) (hw : what ≠ []) :
    (∃ k out, scanReplace what with_ 0 inout = (k, out) ∧
      (∀ fuel, inout.length < fuel → replace_all fuel inout what with_ = some (k, out)) ∧
      k * what.length ≤ inout.length ∧
      out.length = inout.length - k * what.length + k * with_.length) ∧
    (∀ home fuel, inout.length < fuel → ∃ fixed, fix_path fuel home inout = some fixed) ∧
    (∀ fuel, replace_all fuel inout [] with_ = none) := by
  have hspec : ∀ (w2 : List Char) (fuel : Nat), inout.length < fuel →
      replace_all fuel inout what w2 = some (scanReplace what w2 0 inout) := by
    intro w2 fuel hfuel
    have := replace_all_loop_spec what w2 hw fuel inout [] 0 hfuel
    simpa [replace_all] using this
  refine ⟨⟨(scanReplace what with_ 0 inout).1, (scanReplace what with_ 0 inout).2, rfl,
    hspec with_, ?_, ?_⟩, ?_, ?_⟩
  · have := scanReplace_count_le what with_ hw inout 0 (Nat.zero_le _)
    omega
  · have h1 := scanReplace_length what with_ hw inout 0 (Nat.zero_le _)
    have h2 := scanReplace_count_le what with_ hw inout 0 (Nat.zero_le _)
    omega
  · intro home fuel hfuel
    unfold fix_path
    by_cases hh : inout.head? ≠ some '~'
    · rw [if_pos hh]; exact ⟨_, rfl⟩
    · rw [if_neg hh]
      have hrun : ∀ (w2 : List Char),
          replace_all fuel inout "~".toList w2 = some (scanReplace "~".toList w2 0 inout) := by
        intro w2
        have := replace_all_loop_spec "~".toList w2 (by decide) fuel inout [] 0 hfuel
        simpa [replace_all] using this
      rw [hrun home]
      exact ⟨_, rfl⟩
  · intro fuel
    exact replace_all_loop_empty_what with_ fuel inout 0 0 (Nat.zero_le _)

/-- C12 (witness): `~/.cache/cachyos-km` with `~` replaced by the home
directory `/home/a~b`, which itself holds a `~`. -/
theorem replace_all_terminates_witness :
    "~".toList ≠ [] ∧
    (∃ k out, scanReplace "~".toList "/home/a~b".toList 0 "~/.cache/cachyos-km".toList = (k, out) ∧
      (∀ fuel, "~/.cache/cachyos-km".toList.length < fuel →
        replace_all fuel "~/.cache/cachyos-km".toList "~".toList "/home/a~b".toList
          = some (k, out)) ∧
      k * "~".toList.length ≤ "~/.cache/cachyos-km".toList.length ∧
      out.length = "~/.cache/cachyos-km".toList.length - k * "~".toList.length
        + k * "/home/a~b".toList.length) ∧
    (∀ home fuel, "~/.cache/cachyos-km".toList.length < fuel →
      ∃ fixed, fix_path fuel home "~/.cache/cachyos-km".toList = some fixed) ∧
    (∀ fuel, replace_all fuel "~/.cache/cachyos-km".toList [] "/home/a~b".toList = none) :=
  ⟨by decide,
   replace_all_terminates "~/.cache/cachyos-km".toList "~".toList "/home/a~b".toList
     (by decide)⟩

end KernelManager
